import Mathlib

/-!
Verification of the SeiaPanel scheduling-and-archival subsystem.

Shallow embedding of the Go sources:
  * path handling (`path/filepath` on Linux: `Clean`, `Join`, the deprecated
    `filepath.HasPrefix`, and `strings.HasPrefix`) modelled on `List Char`;
  * the archive extractors `extractTarGz`, `extractTar`, `extractZip`
    (handlers, file manager) and `extractTarGzBackup` (services, restore path);
  * the restore procedure `RestoreBackupFromArchive` and `clearDirectory`;
  * backup rotation `RotateBackups`, the HTTP handler `CreateBackup` and the
    scheduled `executeBackup`, over an explicit panel state (database records
    plus on-disk backup file paths);
  * the scheduler map operations `AddSchedule` / `addScheduleInternal` /
    `RemoveSchedule`;
  * the backup-settings handler `UpdateBackupSettings`;
  * the cron validator `ValidateCronField` with its helpers.

Filesystem effects are represented by the paths an operation creates or
removes; the extractors are modelled by the list of target paths they write
(`MkdirAll` of a parent creates only string-prefix ancestors of the listed
target, so per-entry escape behaviour is fully captured by the targets).
-/

/- ## Go string and path primitives (Linux) -/

/-- Characters treated as space by `strings.TrimSpace` (ASCII part, which is
all the repository ever feeds it). -/
def isSp (c : Char) : Bool :=
  c = ' ' || c = '\t' || c = '\n' || c = '\r'

/-- Model of `strings.TrimSpace` on the character list. -/
def trimL (cs : List Char) : List Char :=
  ((cs.dropWhile isSp).reverse.dropWhile isSp).reverse

/-- Model of `strings.TrimSpace`. -/
def trimSpace (s : String) : String :=
  ⟨trimL s.data⟩

/-- Model of `strings.HasPrefix s pre` (also the Unix implementation of the
deprecated `filepath.HasPrefix`): plain string-prefix test. -/
def goHasPfx (s pre : String) : Bool :=
  List.isPrefixOf pre.data s.data

/-- Model of `strings.Contains s c` for a single-character separator. -/
def containsChar (s : String) (c : Char) : Bool :=
  s.data.contains c

/-- Model of `strings.Split` on a single-character separator: substrings
between separators, empties included (`Split "" sep = [""]`). -/
def splitChar (c : Char) : List Char → List (List Char)
  | [] => [[]]
  | x :: xs =>
    let r := splitChar c xs
    if x = c then [] :: r
    else
      match r with
      | [] => [[x]]
      | y :: ys => (x :: y) :: ys

/-- Digit accumulator for `strconv.Atoi`. -/
def digitsValGo : List Char → Nat → Option Nat
  | [], acc => some acc
  | c :: rest, acc =>
    if c.isDigit then digitsValGo rest (acc * 10 + (c.toNat - 48)) else none

/-- Value of a non-empty all-digit character list. -/
def digitsVal (cs : List Char) : Option Nat :=
  match cs with
  | [] => none
  | _ => digitsValGo cs 0

/-- Model of `strconv.Atoi`: optional sign followed by at least one ASCII
digit; anything else is an error (`none`). 64-bit overflow is not modelled
(the repository only parses short numerals). -/
def goAtoi (s : String) : Option Int :=
  match s.data with
  | '+' :: rest => (digitsVal rest).map (fun n => (n : Int))
  | '-' :: rest => (digitsVal rest).map (fun n => -(n : Int))
  | cs => (digitsVal cs).map (fun n => (n : Int))

/-- Element loop of `filepath.Clean` (Plan-9 algorithm, Unix separator):
skips empty and `.` elements, resolves `..` against the stack, drops `..`
at the root of a rooted path. `acc` is the processed stack, newest first. -/
def cleanElems (rooted : Bool) : List (List Char) → List (List Char) → List (List Char)
  | [], acc => acc.reverse
  | e :: rest, acc =>
    if e = [] || e = ['.'] then cleanElems rooted rest acc
    else if e = ['.', '.'] then
      match acc with
      | [] =>
        if rooted then cleanElems rooted rest []
        else cleanElems rooted rest [['.', '.']]
      | top :: acc' =>
        if top = ['.', '.'] then cleanElems rooted rest (['.', '.'] :: top :: acc')
        else cleanElems rooted rest acc'
    else cleanElems rooted rest (e :: acc)

/-- Interpose `/` between path elements. -/
def joinSlash : List (List Char) → List Char
  | [] => []
  | [x] => x
  | x :: xs => x ++ '/' :: joinSlash xs

/-- Model of `filepath.Clean` on the character list (Unix rules). -/
def goCleanL (cs : List Char) : List Char :=
  match cs with
  | [] => ['.']
  | c :: _ =>
    let rooted := c = '/'
    let elems := cleanElems rooted (splitChar '/' cs) []
    let joined := joinSlash elems
    if rooted then '/' :: joined
    else if joined = [] then ['.'] else joined

/-- Model of `filepath.Clean`. -/
def goClean (s : String) : String :=
  ⟨goCleanL s.data⟩

/-- Model of `filepath.Join` for two elements: non-empty elements joined by
`/`, then cleaned; `Join "" "" = ""`. -/
def goJoin (a b : String) : String :=
  if a = "" && b = "" then ""
  else if a = "" then goClean b
  else if b = "" then goClean a
  else goClean ⟨a.data ++ '/' :: b.data⟩

/-- Specification-side containment: the resolved (already cleaned) path `p`
lies inside the destination root `dest` — equal to the cleaned root, or a
path-component descendant of it. -/
def withinRoot (dest p : String) : Bool :=
  p == goClean dest
    || (if goClean dest == "/" then goHasPfx p "/" else goHasPfx p (goClean dest ++ "/"))

/- ## Archive extractors -/

/-- Tar header type flags the extractors dispatch on (`tar.TypeDir`,
`tar.TypeReg`, anything else falls through the switch). -/
inductive TarTypeflag
  | dir
  | reg
  | other
deriving DecidableEq, Repr

/-- A tar entry as the extractors see it: stored name and type flag. -/
structure TarEntry where
  name : String
  typeflag : TarTypeflag
deriving DecidableEq, Repr

/-- A zip entry: stored name and directory bit (`file.FileInfo().IsDir()`). -/
structure ZipEntry where
  name : String
  isDir : Bool
deriving DecidableEq, Repr

/-- Model of `extractTarGz` (handlers, file manager): per entry the target is
`filepath.Join(destPath, header.Name)`; an entry failing the
`strings.HasPrefix(target, filepath.Clean(destPath)+"/")` security check is
skipped (`continue`); `TypeDir` entries create the target directory, `TypeReg`
entries create the target file; other types are ignored. Returns the created
target paths. -/
def extractTarGz (destPath : String) : List TarEntry → List String
  | [] => []
  | h :: rest =>
    let target := goJoin destPath h.name
    if goHasPfx target (goClean destPath ++ "/") then
      match h.typeflag with
      | .dir => target :: extractTarGz destPath rest
      | .reg => target :: extractTarGz destPath rest
      | .other => extractTarGz destPath rest
    else extractTarGz destPath rest

/-- Model of `extractTar` (handlers, file manager): identical loop to
`extractTarGz` but reading a plain tar stream. -/
def extractTar (destPath : String) : List TarEntry → List String
  | [] => []
  | h :: rest =>
    let target := goJoin destPath h.name
    if goHasPfx target (goClean destPath ++ "/") then
      match h.typeflag with
      | .dir => target :: extractTar destPath rest
      | .reg => target :: extractTar destPath rest
      | .other => extractTar destPath rest
    else extractTar destPath rest

/-- Model of `extractZip` (handlers, file manager): same security check and
skip policy; directory entries create the directory, others the file. -/
def extractZip (destPath : String) : List ZipEntry → List String
  | [] => []
  | f :: rest =>
    let target := goJoin destPath f.name
    if goHasPfx target (goClean destPath ++ "/") then
      target :: extractZip destPath rest
    else extractZip destPath rest

/-- Model of `extractTarGzBackup` (services, restore path): per entry the
target is `filepath.Join(destPath, header.Name)`; the security check is
`filepath.HasPrefix(filepath.Clean(target), filepath.Clean(destPath))` — a
bare string-prefix test — and a failing entry aborts the whole extraction
with an error. Returns the target paths created before the abort (if any)
together with the error. -/
def extractTarGzBackup (destPath : String) : List TarEntry → List String × Option String
  | [] => ([], none)
  | h :: rest =>
    let target := goJoin destPath h.name
    if goHasPfx (goClean target) (goClean destPath) then
      let made : List String :=
        match h.typeflag with
        | .dir => [target]
        | .reg => [target]
        | .other => []
      let r := extractTarGzBackup destPath rest
      (made ++ r.1, r.2)
    else ([], some ("invalid file path in archive: " ++ h.name))

/- ## Restore procedure -/

/-- A path `p` lies strictly under directory `d` (path-component descendant,
not `d` itself); used to model `RemoveAll` over the entries of `ReadDir d`. -/
def isUnder (d p : String) : Bool :=
  goHasPfx (goClean p) (goClean d ++ "/")

/-- Model of `clearDirectory`: removes every entry inside `dirPath` but keeps
the directory itself. The filesystem is the list of existing paths. -/
def clearDirectory (fs : List String) (dirPath : String) : List String :=
  fs.filter (fun p => !(isUnder dirPath p))

/-- Model of `RestoreBackupFromArchive`: step 1 checks the backup file
exists, step 2 checks the server folder exists (each failing check returns
an error with the filesystem untouched), step 3 clears the server folder,
step 4 extracts the archive into it.  `archive` is the entry list stored in
the backup file; the result is the filesystem after the call plus the error,
if any. -/
def RestoreBackupFromArchive (archive : List TarEntry) (fs : List String)
    (backupFilePath serverFolderPath : String) : List String × Option String :=
  if !(fs.contains backupFilePath) then
    (fs, some "backup file not found")
  else if !(fs.contains serverFolderPath) then
    (fs, some "server folder not found")
  else
    let fs1 := clearDirectory fs serverFolderPath
    let r := extractTarGzBackup serverFolderPath archive
    match r.2 with
    | some e => (fs1 ++ r.1, some ("failed to extract backup: " ++ e))
    | none => (fs1 ++ r.1, none)

/- ## Backup records, rotation, creation -/

/-- A `models.Backup` record (GORM row). `createdAt` is an abstract
timestamp. -/
structure BackupRec where
  id : Nat
  serverID : Nat
  fileName : String
  filePath : String
  createdAt : Nat
deriving DecidableEq, Repr

/-- The relevant columns of a `models.Server` row. -/
structure Server where
  id : Nat
  name : String
  folderPath : String
  backupPath : String
  maxBackups : Int
  status : String
deriving DecidableEq, Repr

/-- The state the backup operations touch: the `backups` table and the
backup files on disk. -/
structure PanelState where
  db : List BackupRec
  files : List String
deriving DecidableEq, Repr

/-- Model of `models.CountBackups`: `COUNT(*) WHERE server_id = ?`. -/
def countBackups (serverID : Nat) (db : List BackupRec) : Nat :=
  (db.filter (fun b => b.serverID == serverID)).length

/-- First record with minimal `createdAt` (the row `ORDER BY created_at ASC`
returns first; ties resolved by position, matching stable insertion order). -/
def oldestAux : List BackupRec → Option BackupRec
  | [] => none
  | b :: rest =>
    match oldestAux rest with
    | none => some b
    | some c => if c.createdAt < b.createdAt then some c else some b

/-- Model of `models.GetOldestBackup`: oldest backup of the server by
creation timestamp ascending; `none` models gorm's record-not-found error. -/
def getOldestBackup (serverID : Nat) (db : List BackupRec) : Option BackupRec :=
  oldestAux (db.filter (fun b => b.serverID == serverID))

/-- Model of `services.RotateBackups`: counts the server's backups; if
`count >= maxBackups` it fetches the oldest backup (error if none), removes
its file best-effort and deletes its record; otherwise does nothing. -/
def RotateBackups (serverID : Nat) (maxBackups : Int) (st : PanelState) :
    Except String PanelState :=
  let count := countBackups serverID st.db
  if (count : Int) ≥ maxBackups then
    match getOldestBackup serverID st.db with
    | none => .error "failed to get oldest backup"
    | some oldest =>
      .ok ⟨st.db.filter (fun b => b.id != oldest.id),
           st.files.filter (fun p => p != oldest.filePath)⟩
  else .ok st

/-- Model of the HTTP handler `handlers.CreateBackup` from the point where
the server is resolved: missing backup path or rotation failure abort with
the state unchanged; otherwise `CreateTarGzBackup` writes the archive file at
`filepath.Join(server.BackupPath, fileName)` (`createOk` abstracts its I/O
success), then `models.CreateBackup` inserts the record (`insertOk` abstracts
the database success) — and on insert failure the handler runs
`os.Remove(backupPath)` on the just-written file. `newId`/`newTime` are the
id and timestamp the database assigns; `fileName` abstracts
`GenerateBackupFileName` (random). Returns the final state and whether the
request succeeded. -/
def httpCreateBackup (server : Server) (createOk insertOk : Bool)
    (newId newTime : Nat) (fileName : String) (st : PanelState) :
    PanelState × Bool :=
  if server.backupPath = "" then (st, false)
  else
    match RotateBackups server.id server.maxBackups st with
    | .error _ => (st, false)
    | .ok st1 =>
      if createOk then
        let backupFilePath := goJoin server.backupPath fileName
        let st2 : PanelState := ⟨st1.db, backupFilePath :: st1.files⟩
        if insertOk then
          (⟨st2.db ++ [⟨newId, server.id, fileName, backupFilePath, newTime⟩],
            st2.files⟩, true)
        else
          (⟨st2.db, st2.files.filter (fun p => p != backupFilePath)⟩, false)
      else (st1, false)

/-- Model of the scheduled `services.executeBackup` (schedule firing path):
same guard, rotation, archive creation and record insertion as the HTTP
handler — but when the record insertion fails it only logs and returns,
without removing the written archive file. -/
def executeBackup (server : Server) (createOk insertOk : Bool)
    (newId newTime : Nat) (fileName : String) (st : PanelState) :
    PanelState × Bool :=
  if server.backupPath = "" then (st, false)
  else
    match RotateBackups server.id server.maxBackups st with
    | .error _ => (st, false)
    | .ok st1 =>
      if createOk then
        let backupFilePath := goJoin server.backupPath fileName
        let st2 : PanelState := ⟨st1.db, backupFilePath :: st1.files⟩
        if insertOk then
          (⟨st2.db ++ [⟨newId, server.id, fileName, backupFilePath, newTime⟩],
            st2.files⟩, true)
        else (st2, false)
      else (st1, false)

/- ## Backup settings handler -/

/-- Model of `handlers.UpdateBackupSettings` from the point where the form is
parsed: empty path and non-`[1,3]` `max_backups` values are rejected before
any state change; `pathValid` abstracts `services.ValidateBackupPath` and
`saveOk` the database save inside `server.UpdateBackupSettings` (the setter
itself lives in the server model; its call site shows it stores exactly the
two validated values). Returns the resulting server row and the error, if
any. -/
def UpdateBackupSettings (pathValid saveOk : Bool) (server : Server)
    (backupPath maxBackupsStr : String) : Server × Option String :=
  if backupPath = "" then (server, some "Backup path is required")
  else
    match goAtoi maxBackupsStr with
    | none => (server, some "Max backups must be between 1 and 3")
    | some m =>
      if m < 1 ∨ m > 3 then (server, some "Max backups must be between 1 and 3")
      else if !pathValid then (server, some "Invalid backup path")
      else if !saveOk then (server, some "Failed to update settings")
      else ({ server with backupPath := backupPath, maxBackups := m }, none)

/- ## Scheduler core -/

/-- A `models.Schedule` row. -/
structure Schedule where
  id : Nat
  serverID : Nat
  name : String
  cronMinute : String
  cronHour : String
  cronDayOfMonth : String
  cronMonth : String
  cronDayOfWeek : String
  enabled : Bool
  action : String
  command : String
deriving DecidableEq, Repr

/-- Model of `Schedule.GetCronExpression`: the five fields space-joined in
the fixed order minute, hour, day-of-month, month, day-of-week. -/
def GetCronExpression (s : Schedule) : String :=
  s.cronMinute ++ " " ++ s.cronHour ++ " " ++ s.cronDayOfMonth ++ " "
    ++ s.cronMonth ++ " " ++ s.cronDayOfWeek

/-- The scheduler's mutable state: the `schedules` map (schedule id to cron
entry id, as an association list with at most one binding per key) and the
next entry id the cron engine will issue. -/
structure SchedState where
  schedules : List (Nat × Nat)
  nextEntry : Nat
deriving DecidableEq, Repr

/-- Model of `addScheduleInternal`: fails if the schedule id is already in
the map; otherwise asks the cron engine to register the expression
(`cronOk` abstracts `cron.AddFunc`'s parse result) and stores the fresh
entry id under the schedule id. -/
def addScheduleInternal (cronOk : String → Bool) (sched : Schedule)
    (st : SchedState) : SchedState × Option String :=
  if (st.schedules.lookup sched.id).isSome then
    (st, some "schedule already exists in cron")
  else if cronOk (GetCronExpression sched) then
    (⟨(sched.id, st.nextEntry) :: st.schedules, st.nextEntry + 1⟩, none)
  else (st, some "failed to add cron job")

/-- Model of `AddSchedule`: disabled schedules are silently skipped
(returns `nil` without touching the map); enabled ones go through
`addScheduleInternal` under the lock. -/
def AddSchedule (cronOk : String → Bool) (sched : Schedule)
    (st : SchedState) : SchedState × Option String :=
  if !sched.enabled then (st, none)
  else addScheduleInternal cronOk sched st

/-- Model of `RemoveSchedule`: a missing id is a no-op returning `nil`;
otherwise the cron entry is removed and the binding deleted from the map. -/
def RemoveSchedule (scheduleID : Nat) (st : SchedState) :
    SchedState × Option String :=
  match st.schedules.lookup scheduleID with
  | none => (st, none)
  | some _ =>
    (⟨st.schedules.filter (fun p => p.1 != scheduleID), st.nextEntry⟩, none)

/- ## Cron validator -/

/-- Does the value start with the two characters of a step form? -/
def hasStarSlash (value : String) : Bool :=
  match value.data with
  | '*' :: '/' :: _ => true
  | _ => false

/-- Model of `validateSingleCronValue`: parse the integer, then bounds-check
it against the field's range; field names outside the switch pass. -/
def validateSingleCronValue (fieldName value : String) : Option String :=
  match goAtoi value with
  | none => some ("invalid value in " ++ fieldName ++ ": " ++ value)
  | some num =>
    if fieldName = "minute" then
      if num < 0 ∨ num > 59 then some "minute must be between 0-59" else none
    else if fieldName = "hour" then
      if num < 0 ∨ num > 23 then some "hour must be between 0-23" else none
    else if fieldName = "day_of_month" then
      if num < 1 ∨ num > 31 then some "day of month must be between 1-31" else none
    else if fieldName = "month" then
      if num < 1 ∨ num > 12 then some "month must be between 1-12" else none
    else if fieldName = "day_of_week" then
      if num < 0 ∨ num > 6 then some "day of week must be between 0-6" else none
    else none

/-- Model of `validateCronRange`: per-field bounds on the two endpoints. -/
def validateCronRange (fieldName : String) (a b : Int) : Option String :=
  if fieldName = "minute" then
    if a < 0 ∨ b > 59 then some "minute range must be between 0-59" else none
  else if fieldName = "hour" then
    if a < 0 ∨ b > 23 then some "hour range must be between 0-23" else none
  else if fieldName = "day_of_month" then
    if a < 1 ∨ b > 31 then some "day of month range must be between 1-31" else none
  else if fieldName = "month" then
    if a < 1 ∨ b > 12 then some "month range must be between 1-12" else none
  else if fieldName = "day_of_week" then
    if a < 0 ∨ b > 6 then some "day of week range must be between 0-6" else none
  else none

/-- The loop over a comma-separated list: each part is trimmed and fed to
`validateSingleCronValue`; the first error aborts. -/
def validateListParts (fieldName : String) : List String → Option String
  | [] => none
  | p :: rest =>
    match validateSingleCronValue fieldName (trimSpace p) with
    | some e => some e
    | none => validateListParts fieldName rest

/-- Model of `models.ValidateCronField`: empty rejected; `*` accepted;
`*/n` accepted whenever `n` parses and `n ≥ 1`; comma lists validate every
trimmed part as a single value; a single `a-b` range needs exactly two
parts, both parsing, `a < b`, and the per-field range bounds; anything else
is a single value. -/
def ValidateCronField (fieldName value : String) : Option String :=
  if value = "" then some (fieldName ++ " cannot be empty")
  else if value = "*" then none
  else if hasStarSlash value then
    match goAtoi ⟨value.data.drop 2⟩ with
    | none => some ("invalid step value in " ++ fieldName ++ ": " ++ value)
    | some step =>
      if step < 1 then some ("invalid step value in " ++ fieldName ++ ": " ++ value)
      else none
  else if containsChar value ',' then
    validateListParts fieldName ((splitChar ',' value.data).map (fun cs => ⟨cs⟩))
  else if containsChar value '-' then
    match splitChar '-' value.data with
    | [a, b] =>
      match goAtoi (trimSpace ⟨a⟩), goAtoi (trimSpace ⟨b⟩) with
      | some s, some e =>
        if s ≥ e then some ("invalid range in " ++ fieldName ++ ": " ++ value)
        else validateCronRange fieldName s e
      | _, _ => some ("invalid range in " ++ fieldName ++ ": " ++ value)
    | _ => some ("invalid range in " ++ fieldName ++ ": " ++ value)
  else validateSingleCronValue fieldName value

/-- Specification-side table of the per-field numeric ranges the claims
name: minute 0-59, hour 0-23, day-of-month 1-31, month 1-12,
day-of-week 0-6. -/
def fieldRange (fieldName : String) : Option (Int × Int) :=
  if fieldName = "minute" then some (0, 59)
  else if fieldName = "hour" then some (0, 23)
  else if fieldName = "day_of_month" then some (1, 31)
  else if fieldName = "month" then some (1, 12)
  else if fieldName = "day_of_week" then some (0, 6)
  else none

/-- Specification-side extraction of the numbers a cron value contains,
following the grammar's own decomposition (list parts, range endpoints, or
the single value); wildcard and step forms carry no plain value numbers
here — the step divisor is read separately in the claims about steps. -/
def cronNumbers (value : String) : List Int :=
  if value = "*" then []
  else if hasStarSlash value then []
  else if containsChar value ',' then
    ((splitChar ',' value.data).map (fun cs => (⟨cs⟩ : String))).filterMap
      (fun p => goAtoi (trimSpace p))
  else if containsChar value '-' then
    ((splitChar '-' value.data).map (fun cs => (⟨cs⟩ : String))).filterMap
      (fun p => goAtoi (trimSpace p))
  else (goAtoi value).toList

/- ## Helper lemmas -/

theorem strData_append (a b : String) : (a ++ b).data = a.data ++ b.data := by
  cases a; cases b; rfl

theorem pfx_of_append (a b p : List Char) (h : (a ++ b).isPrefixOf p = true) :
    a.isPrefixOf p = true := by
  rw [List.isPrefixOf_iff_prefix] at h ⊢
  exact (List.prefix_append a b).trans h

theorem check_within (dest target : String)
    (h : goHasPfx target (goClean dest ++ "/") = true) :
    withinRoot dest target = true := by
  unfold withinRoot
  rw [Bool.or_eq_true]
  right
  split
  · rename_i h2
    have hd : goClean dest = "/" := beq_iff_eq.mp h2
    unfold goHasPfx at h ⊢
    have e : (goClean dest ++ "/").data = ("/" : String).data ++ ("/" : String).data := by
      rw [hd]; exact strData_append _ _
    rw [e] at h
    exact pfx_of_append _ _ _ h
  · exact h

theorem extractTarGz_within (dest : String) (es : List TarEntry) :
    (extractTarGz dest es).all (fun p => withinRoot dest p) = true := by
  induction es with
  | nil => rfl
  | cons h rest ih =>
    obtain ⟨nm, tf⟩ := h
    cases tf with
    | dir =>
      simp only [extractTarGz]
      split
      · rename_i hc
        rw [List.all_cons, Bool.and_eq_true]
        exact ⟨check_within _ _ hc, ih⟩
      · exact ih
    | reg =>
      simp only [extractTarGz]
      split
      · rename_i hc
        rw [List.all_cons, Bool.and_eq_true]
        exact ⟨check_within _ _ hc, ih⟩
      · exact ih
    | other =>
      simp only [extractTarGz]
      split <;> exact ih

theorem extractTar_within (dest : String) (es : List TarEntry) :
    (extractTar dest es).all (fun p => withinRoot dest p) = true := by
  induction es with
  | nil => rfl
  | cons h rest ih =>
    obtain ⟨nm, tf⟩ := h
    cases tf with
    | dir =>
      simp only [extractTar]
      split
      · rename_i hc
        rw [List.all_cons, Bool.and_eq_true]
        exact ⟨check_within _ _ hc, ih⟩
      · exact ih
    | reg =>
      simp only [extractTar]
      split
      · rename_i hc
        rw [List.all_cons, Bool.and_eq_true]
        exact ⟨check_within _ _ hc, ih⟩
      · exact ih
    | other =>
      simp only [extractTar]
      split <;> exact ih

theorem extractZip_within (dest : String) (zs : List ZipEntry) :
    (extractZip dest zs).all (fun p => withinRoot dest p) = true := by
  induction zs with
  | nil => rfl
  | cons f rest ih =>
    simp only [extractZip]
    split
    · rename_i hc
      rw [List.all_cons, Bool.and_eq_true]
      exact ⟨check_within _ _ hc, ih⟩
    · exact ih

theorem extractTarGzBackup_pfx (dest : String) (es : List TarEntry) :
    ((extractTarGzBackup dest es).1).all
      (fun p => goHasPfx (goClean p) (goClean dest)) = true := by
  induction es with
  | nil => rfl
  | cons h rest ih =>
    obtain ⟨nm, tf⟩ := h
    cases tf with
    | dir =>
      simp only [extractTarGzBackup]
      split
      · rename_i hc
        simp only [List.singleton_append, List.all_cons, Bool.and_eq_true]
        exact ⟨hc, ih⟩
      · rfl
    | reg =>
      simp only [extractTarGzBackup]
      split
      · rename_i hc
        simp only [List.singleton_append, List.all_cons, Bool.and_eq_true]
        exact ⟨hc, ih⟩
      · rfl
    | other =>
      simp only [extractTarGzBackup]
      split
      · exact ih
      · rfl

/- ## C1 -/

/-- C1, counterexample: the restore-path extractor checks only a bare string
prefix of the cleaned paths, so an entry named `../bc/f` extracted into
`/a/b` is written at `/a/bc/f`, outside the destination root; and the
claim's own instance fails too — an entry named `../../escape.txt` extracted
into destination `.` passes the check and is written at `../../escape.txt`,
outside the destination. -/
theorem restore_extractor_escape_counterexample :
    (extractTarGzBackup "/a/b" [⟨"../bc/f", TarTypeflag.reg⟩]).1 = ["/a/bc/f"] ∧
    withinRoot "/a/b" "/a/bc/f" = false ∧
    (extractTarGzBackup "." [⟨"../../escape.txt", TarTypeflag.reg⟩]).1
      = ["../../escape.txt"] ∧
    withinRoot "." "../../escape.txt" = false := by
  decide

/-- C1, amended: the file-manager extractors (tar, tar.gz/tgz, zip) never
create an entry whose resolved path lies outside the destination root — their
check requires the target to extend the cleaned destination by a path
separator; the restore-path tar.gz extractor guarantees only the weaker bare
string-prefix containment of cleaned paths, which the counterexample shows
is escapable. -/
theorem file_manager_extractors_stay_within_root :
    (∀ dest es, (extractTarGz dest es).all (fun p => withinRoot dest p) = true) ∧
    (∀ dest es, (extractTar dest es).all (fun p => withinRoot dest p) = true) ∧
    (∀ dest zs, (extractZip dest zs).all (fun p => withinRoot dest p) = true) ∧
    (∀ dest es, ((extractTarGzBackup dest es).1).all
      (fun p => goHasPfx (goClean p) (goClean dest)) = true) :=
  ⟨extractTarGz_within, extractTar_within, extractZip_within, extractTarGzBackup_pfx⟩

/- ## C6 -/

/-- C6, counterexample: an archive containing an entry that escapes the
destination root does not make the file-manager tar.gz extraction fail — the
offending entry is skipped and the remaining entries are extracted. -/
theorem targz_skip_not_abort_counterexample :
    extractTarGz "/srv" [⟨"../evil.txt", TarTypeflag.reg⟩, ⟨"ok.txt", TarTypeflag.reg⟩]
      = ["/srv/ok.txt"] := by
  decide

/-- C6, amended: on an entry whose resolved path escapes the destination
root, the file-manager extractors for tar, tar.gz/tgz and zip all skip the
offending entry and continue, while the backup-restore tar.gz extractor
(whose check is the bare string-prefix test) fails the whole operation on an
entry failing that test. -/
theorem extract_escape_policy :
    (∀ dest (h : TarEntry) rest, withinRoot dest (goJoin dest h.name) = false →
      extractTarGz dest (h :: rest) = extractTarGz dest rest) ∧
    (∀ dest (h : TarEntry) rest, withinRoot dest (goJoin dest h.name) = false →
      extractTar dest (h :: rest) = extractTar dest rest) ∧
    (∀ dest (z : ZipEntry) rest, withinRoot dest (goJoin dest z.name) = false →
      extractZip dest (z :: rest) = extractZip dest rest) ∧
    (∀ dest (h : TarEntry) rest,
      goHasPfx (goClean (goJoin dest h.name)) (goClean dest) = false →
      extractTarGzBackup dest (h :: rest)
        = ([], some ("invalid file path in archive: " ++ h.name))) := by
  refine ⟨?_, ?_, ?_, ?_⟩
  · intro dest h rest hw
    have hc : goHasPfx (goJoin dest h.name) (goClean dest ++ "/") = false := by
      cases hcb : goHasPfx (goJoin dest h.name) (goClean dest ++ "/")
      · rfl
      · rw [check_within _ _ hcb] at hw; exact absurd hw (by simp)
    obtain ⟨nm, tf⟩ := h
    simp only [extractTarGz]
    simp only [hc, Bool.false_eq_true, if_false]
  · intro dest h rest hw
    have hc : goHasPfx (goJoin dest h.name) (goClean dest ++ "/") = false := by
      cases hcb : goHasPfx (goJoin dest h.name) (goClean dest ++ "/")
      · rfl
      · rw [check_within _ _ hcb] at hw; exact absurd hw (by simp)
    obtain ⟨nm, tf⟩ := h
    simp only [extractTar]
    simp only [hc, Bool.false_eq_true, if_false]
  · intro dest z rest hw
    have hc : goHasPfx (goJoin dest z.name) (goClean dest ++ "/") = false := by
      cases hcb : goHasPfx (goJoin dest z.name) (goClean dest ++ "/")
      · rfl
      · rw [check_within _ _ hcb] at hw; exact absurd hw (by simp)
    obtain ⟨nm, hd⟩ := z
    simp only [extractZip]
    simp only [hc, Bool.false_eq_true, if_false]
  · intro dest h rest hc
    obtain ⟨nm, tf⟩ := h
    simp only [extractTarGzBackup]
    simp only [hc, Bool.false_eq_true, if_false]

/-- C6 witness: concrete instances of the skip and abort behaviours. -/
theorem extract_escape_policy_witness :
    extractTarGz "/srv" [⟨"../evil.txt", TarTypeflag.reg⟩] = []
    ∧ extractTarGzBackup "/srv"
        [⟨"../evil.txt", TarTypeflag.reg⟩, ⟨"ok.txt", TarTypeflag.reg⟩]
        = ([], some "invalid file path in archive: ../evil.txt") := by
  constructor
  · exact (extract_escape_policy.1 "/srv" ⟨"../evil.txt", TarTypeflag.reg⟩ []
      (by decide)).trans (by decide)
  · exact (extract_escape_policy.2.2.2 "/srv" ⟨"../evil.txt", TarTypeflag.reg⟩
      [⟨"ok.txt", TarTypeflag.reg⟩] (by decide)).trans (by decide)

/- ## C4 -/

/-- C4: when the backup path does not exist, `RestoreBackupFromArchive`
returns the not-found error before any destructive step, and the filesystem
— in particular every pre-existing file in the target directory — is
unchanged. -/
theorem restore_missing_backup_no_action :
    ∀ (archive : List TarEntry) (fs : List String) (bp sf : String),
      fs.contains bp = false →
      RestoreBackupFromArchive archive fs bp sf
        = (fs, some "backup file not found") := by
  intro archive fs bp sf h
  unfold RestoreBackupFromArchive
  rw [h]
  rfl

/-- C4 witness: restoring from a missing backup path leaves a filesystem
holding a sentinel file untouched. -/
theorem restore_missing_backup_no_action_witness :
    RestoreBackupFromArchive [] ["/srv", "/srv/sentinel.txt"] "/bk/missing.tar.gz" "/srv"
      = (["/srv", "/srv/sentinel.txt"], some "backup file not found") :=
  restore_missing_backup_no_action [] _ _ _ (by decide)

/- ## C8 -/

/-- C8: adding an enabled schedule whose id is already registered in the
scheduler map returns an error and leaves the state unchanged, while
removing an unregistered schedule id returns `none` (no error) and leaves
the state unchanged. -/
theorem scheduler_add_remove_semantics :
    (∀ (cronOk : String → Bool) (sched : Schedule) (st : SchedState),
      sched.enabled = true →
      (st.schedules.lookup sched.id).isSome = true →
      AddSchedule cronOk sched st = (st, some "schedule already exists in cron")) ∧
    (∀ (scheduleID : Nat) (st : SchedState),
      st.schedules.lookup scheduleID = none →
      RemoveSchedule scheduleID st = (st, none)) := by
  constructor
  · intro cronOk sched st he hl
    unfold AddSchedule addScheduleInternal
    rw [he]
    simp [hl]
  · intro scheduleID st hl
    unfold RemoveSchedule
    rw [hl]

/-- C8 witness: a duplicate add fails on a concrete registered map; a remove
of an absent id is a concrete no-op. -/
theorem scheduler_add_remove_semantics_witness :
    AddSchedule (fun _ => true)
        ⟨1, 1, "n", "*", "*", "*", "*", "*", true, "backup", ""⟩ ⟨[(1, 5)], 7⟩
      = (⟨[(1, 5)], 7⟩, some "schedule already exists in cron")
    ∧ RemoveSchedule 2 ⟨[(1, 5)], 7⟩ = (⟨[(1, 5)], 7⟩, none) :=
  ⟨scheduler_add_remove_semantics.1 _ _ _ rfl (by decide),
   scheduler_add_remove_semantics.2 _ _ (by decide)⟩

/- ## C9 -/

/-- C9: a `max_backups` form value that is not an integer in `[1, 3]` is
rejected by the settings handler with the validation error and the server
row is returned unchanged; and any successful update leaves the stored
maximum in `[1, 3]` (and the stored path equal to the submitted one). -/
theorem update_backup_settings_bounds :
    (∀ (pathValid saveOk : Bool) (server : Server) (bp ms : String),
      bp ≠ "" →
      (∀ m, goAtoi ms = some m → m < 1 ∨ m > 3) →
      UpdateBackupSettings pathValid saveOk server bp ms
        = (server, some "Max backups must be between 1 and 3")) ∧
    (∀ (pathValid saveOk : Bool) (server : Server) (bp ms : String)
      (server2 : Server),
      UpdateBackupSettings pathValid saveOk server bp ms = (server2, none) →
      1 ≤ server2.maxBackups ∧ server2.maxBackups ≤ 3 ∧ server2.backupPath = bp) := by
  constructor
  · intro pv so server bp ms hbp hm
    unfold UpdateBackupSettings
    rw [if_neg hbp]
    cases hat : goAtoi ms with
    | none => rfl
    | some m => simp [hm m hat]
  · intro pv so server bp ms server2 h
    unfold UpdateBackupSettings at h
    split at h
    · exact absurd h (by simp)
    · split at h
      · exact absurd h (by simp)
      · rename_i m hat
        split at h
        · exact absurd h (by simp)
        · split at h
          · exact absurd h (by simp)
          · split at h
            · exact absurd h (by simp)
            · rename_i hrange hpv hso
              obtain ⟨h1, h2⟩ := Prod.mk.injEq .. ▸ h
              subst h1
              refine ⟨?_, ?_, rfl⟩ <;> simp_all

/-- C9 witness: the concrete value `5` is rejected with the server row
unchanged. -/
theorem update_backup_settings_bounds_witness :
    UpdateBackupSettings true true ⟨1, "s", "/data", "/bk", 3, "offline"⟩ "/bk" "5"
      = (⟨1, "s", "/data", "/bk", 3, "offline"⟩,
         some "Max backups must be between 1 and 3") :=
  update_backup_settings_bounds.1 true true _ "/bk" "5" (by decide)
    (fun m hm => by
      rw [(by decide : goAtoi "5" = some (5 : Int))] at hm
      injection hm with h
      omega)

/- ## C10 -/

/-- C10: adding a schedule whose `Enabled` flag is false returns `none`
(indistinguishable from success) and leaves the scheduler state — in
particular the schedule-to-entry map — completely unchanged. -/
theorem add_disabled_schedule_noop :
    ∀ (cronOk : String → Bool) (sched : Schedule) (st : SchedState),
      sched.enabled = false →
      AddSchedule cronOk sched st = (st, none) := by
  intro cronOk sched st h
  unfold AddSchedule
  rw [h]
  rfl

/-- C10 witness: a concrete disabled schedule is silently skipped. -/
theorem add_disabled_schedule_noop_witness :
    AddSchedule (fun _ => true)
        ⟨1, 1, "n", "*", "*", "*", "*", "*", false, "backup", ""⟩ ⟨[(2, 5)], 7⟩
      = (⟨[(2, 5)], 7⟩, none) :=
  add_disabled_schedule_noop _ _ _ rfl

theorem contains_false_filter (l : List String) (q : String → Bool) (a : String)
    (h : l.contains a = false) : (l.filter q).contains a = false := by
  simp only [List.elem_eq_mem, decide_eq_false_iff_not] at h ⊢
  intro hm
  exact h (List.mem_of_mem_filter hm)

theorem contains_filter_ne_self (l : List String) (a : String) :
    (l.filter (fun q => q != a)).contains a = false := by
  simp

theorem oldestAux_mem (l : List BackupRec) (b : BackupRec)
    (h : oldestAux l = some b) : b ∈ l := by
  induction l generalizing b with
  | nil => exact absurd h (by simp [oldestAux])
  | cons a t ih =>
    unfold oldestAux at h
    cases hr : oldestAux t with
    | none =>
      rw [hr] at h
      simp only at h
      cases h
      exact List.mem_cons_self _ _
    | some c =>
      rw [hr] at h
      simp only at h
      split at h
      · cases h; exact List.mem_cons_of_mem _ (ih _ hr)
      · cases h; exact List.mem_cons_self _ _

theorem oldestAux_none (l : List BackupRec) (h : oldestAux l = none) : l = [] := by
  cases l with
  | nil => rfl
  | cons a t =>
    exfalso
    unfold oldestAux at h
    cases hr : oldestAux t with
    | none =>
      rw [hr] at h
      simp only at h
      exact absurd h (by simp)
    | some c =>
      rw [hr] at h
      simp only at h
      split at h <;> exact absurd h (by simp)

theorem oldestAux_min (l : List BackupRec) (b : BackupRec)
    (h : oldestAux l = some b) : ∀ c ∈ l, b.createdAt ≤ c.createdAt := by
  induction l generalizing b with
  | nil => exact absurd h (by simp [oldestAux])
  | cons a t ih =>
    intro c hc
    unfold oldestAux at h
    cases hr : oldestAux t with
    | none =>
      have ht : t = [] := oldestAux_none t hr
      subst ht
      rw [hr] at h
      simp only at h
      cases h
      rcases List.mem_cons.mp hc with rfl | h2
      · exact Nat.le_refl _
      · exact absurd h2 (by simp)
    | some d =>
      rw [hr] at h
      simp only at h
      rcases List.mem_cons.mp hc with rfl | h2
      · split at h
        · rename_i hlt; cases h; exact Nat.le_of_lt hlt
        · cases h; exact Nat.le_refl _
      · split at h
        · cases h; exact ih _ hr _ h2
        · rename_i hnlt
          cases h
          exact Nat.le_trans (Nat.le_of_not_lt hnlt) (ih _ hr _ h2)

theorem getOldest_mem (sid : Nat) (db : List BackupRec) (b : BackupRec)
    (h : getOldestBackup sid db = some b) : b ∈ db ∧ b.serverID = sid := by
  unfold getOldestBackup at h
  have hm := oldestAux_mem _ _ h
  have h2 := List.mem_filter.mp hm
  exact ⟨h2.1, by simpa using h2.2⟩

theorem getOldest_min (sid : Nat) (db : List BackupRec) (b : BackupRec)
    (h : getOldestBackup sid db = some b) :
    ∀ c ∈ db, c.serverID = sid → b.createdAt ≤ c.createdAt := by
  intro c hc hcs
  exact oldestAux_min _ b h c (List.mem_filter.mpr ⟨hc, by simp [hcs]⟩)

theorem getOldest_isSome (sid : Nat) (db : List BackupRec)
    (h : countBackups sid db ≠ 0) : (getOldestBackup sid db).isSome = true := by
  unfold getOldestBackup
  cases hf : db.filter (fun b => b.serverID == sid) with
  | nil => exact absurd (by unfold countBackups; rw [hf]; rfl) h
  | cons a t =>
    unfold oldestAux
    cases oldestAux t with
    | none => rfl
    | some c =>
      simp only
      split <;> rfl

theorem countBackups_cons (sid : Nat) (a : BackupRec) (l : List BackupRec) :
    countBackups sid (a :: l)
      = (if a.serverID == sid then 1 else 0) + countBackups sid l := by
  unfold countBackups
  rw [List.filter_cons]
  split
  · simp [Nat.add_comm]
  · simp

theorem countBackups_append_one (sid : Nat) (l : List BackupRec) (r : BackupRec)
    (hr : r.serverID = sid) :
    countBackups sid (l ++ [r]) = countBackups sid l + 1 := by
  unfold countBackups
  rw [List.filter_append]
  simp [hr]

theorem count_erase_oldest (sid : Nat) (db : List BackupRec) (b : BackupRec)
    (hnd : (db.map BackupRec.id).Nodup) (hb : b ∈ db) (hbs : b.serverID = sid) :
    countBackups sid (db.filter (fun x => x.id != b.id)) + 1
      = countBackups sid db := by
  induction db with
  | nil => exact absurd hb (by simp)
  | cons a t ih =>
    rw [List.map_cons, List.nodup_cons] at hnd
    rcases List.mem_cons.mp hb with rfl | hbt
    · have ht : t.filter (fun x => x.id != b.id) = t := by
        apply List.filter_eq_self.mpr
        intro x hx
        simp only [bne_iff_ne, ne_eq, decide_eq_true_eq]
        intro he
        exact hnd.1 (he ▸ List.mem_map_of_mem BackupRec.id hx)
      rw [List.filter_cons]
      have hbb : (b.id != b.id) = false := by simp
      rw [hbb]
      simp only [Bool.false_eq_true, if_false]
      rw [ht, countBackups_cons]
      simp only [hbs, beq_self_eq_true, if_true]
      omega
    · have hane : (a.id != b.id) = true := by
        simp only [bne_iff_ne, ne_eq, decide_eq_true_eq]
        intro he
        exact hnd.1 (he ▸ List.mem_map_of_mem BackupRec.id hbt)
      rw [List.filter_cons, hane]
      simp only [if_true]
      rw [countBackups_cons, countBackups_cons, Nat.add_assoc, ih hnd.2 hbt]

theorem rotate_ok_files (sid : Nat) (mx : Int) (st st1 : PanelState)
    (h : RotateBackups sid mx st = .ok st1) :
    st1.files = st.files ∨ ∃ fp, st1.files = st.files.filter (fun p => p != fp) := by
  unfold RotateBackups at h
  split at h
  · simp only at h
    split at h
    · exact absurd h (by simp)
    · cases h
      left
      rfl
  · simp only at h
    split at h
    · cases h
      right
      exact ⟨_, rfl⟩
    · cases h
      left
      rfl

theorem rotate_ok_count (sid : Nat) (mx : Int) (st st1 : PanelState)
    (hnd : (st.db.map BackupRec.id).Nodup)
    (h : RotateBackups sid mx st = .ok st1) :
    ((countBackups sid st.db : Int) < mx ∧ st1 = st) ∨
    ((countBackups sid st.db : Int) ≥ mx ∧
      countBackups sid st1.db + 1 = countBackups sid st.db) := by
  unfold RotateBackups at h
  split at h
  · rename_i hg
    simp only at h
    split at h
    · exact absurd h (by simp)
    · rename_i hge
      cases h
      left
      exact ⟨by omega, rfl⟩
  · rename_i oldest hg
    simp only at h
    split at h
    · rename_i hge
      cases h
      right
      refine ⟨by omega, ?_⟩
      have hm := getOldest_mem sid st.db oldest hg
      exact count_erase_oldest sid st.db oldest hnd hm.1 hm.2
    · rename_i hge
      cases h
      left
      exact ⟨by omega, rfl⟩

/- ## C2 -/

/-- C2, counterexample: with three backups already recorded for the server
and a configured maximum of 1, a completed create still leaves three
records — rotation evicts only one before the insert, so a count already
above the maximum stays above it. -/
theorem rotation_above_max_counterexample :
    countBackups 1 ((httpCreateBackup ⟨1, "s", "/data", "/bk", 1, "offline"⟩
        true true 9 9 "n.tar.gz"
        ⟨[⟨1, 1, "a", "/bk/a", 0⟩, ⟨2, 1, "b", "/bk/b", 1⟩, ⟨3, 1, "c", "/bk/c", 2⟩],
         ["/bk/a", "/bk/b", "/bk/c"]⟩).1).db = 3
    ∧ ((1 : Int) < 3) := by
  decide

/-- C2, amended: provided the server's backup count does not already exceed
the configured maximum, it still does not exceed it after a create-backup
operation completes (in any combination of archive-write and record-insert
outcomes); the `Nodup` hypothesis is the database primary-key invariant on
backup ids. -/
theorem create_backup_count_le_max :
    ∀ (server : Server) (createOk insertOk : Bool) (newId newTime : Nat)
      (fileName : String) (st : PanelState),
      (st.db.map BackupRec.id).Nodup →
      (countBackups server.id st.db : Int) ≤ server.maxBackups →
      (countBackups server.id
        ((httpCreateBackup server createOk insertOk newId newTime fileName st).1).db : Int)
        ≤ server.maxBackups := by
  intro server cOk iOk nid nt fn st hnd hle
  unfold httpCreateBackup
  split
  · exact hle
  · cases hr : RotateBackups server.id server.maxBackups st with
    | error e =>
      simp only
      exact hle
    | ok st1 =>
      simp only
      rcases rotate_ok_count _ _ _ _ hnd hr with ⟨hlt, rfl⟩ | ⟨hge, hcount⟩
      · split
        · split
          · simp only
            rw [countBackups_append_one server.id st1.db
              ⟨nid, server.id, fn, goJoin server.backupPath fn, nt⟩ rfl]
            omega
          · exact hle
        · exact hle
      · split
        · split
          · simp only
            rw [countBackups_append_one server.id st1.db
              ⟨nid, server.id, fn, goJoin server.backupPath fn, nt⟩ rfl]
            omega
          · dsimp only
            omega
        · dsimp only
          omega

/-- C2 witness: one existing backup, maximum 2, successful create: the final
count 2 does not exceed the maximum. -/
theorem create_backup_count_le_max_witness :
    (countBackups 1 ((httpCreateBackup ⟨1, "s", "/data", "/bk", 2, "offline"⟩
        true true 9 9 "n.tar.gz"
        ⟨[⟨1, 1, "a", "/bk/a", 0⟩], ["/bk/a"]⟩).1).db : Int) ≤ 2 :=
  create_backup_count_le_max ⟨1, "s", "/data", "/bk", 2, "offline"⟩
    true true 9 9 "n.tar.gz" ⟨[⟨1, 1, "a", "/bk/a", 0⟩], ["/bk/a"]⟩
    (by decide) (by decide)

/- ## C3 -/

/-- C3, counterexample: in the scheduled firing path, a failed record insert
leaves the already-written archive file on disk — starting from an empty
state, the run fails yet the backup file remains (an orphan). -/
theorem scheduled_backup_orphan_counterexample :
    executeBackup ⟨1, "srv", "/data", "/backups", 3, "offline"⟩ true false 7 10
        "b.tar.gz" ⟨[], []⟩
      = (⟨[], ["/backups/b.tar.gz"]⟩, false) := by
  decide

/-- C3, amended: in the HTTP handler path the archive file is written first
and removed again whenever the record insert fails, so the handler leaves no
orphaned backup file; in the scheduled firing path a failed record insert
returns with the archive file still on disk. -/
theorem backup_create_cleanup :
    (∀ (server : Server) (createOk : Bool) (newId newTime : Nat)
      (fileName : String) (st : PanelState),
      st.files.contains (goJoin server.backupPath fileName) = false →
      ((httpCreateBackup server createOk false newId newTime fileName st).1).files.contains
        (goJoin server.backupPath fileName) = false) ∧
    (∀ (server : Server) (newId newTime : Nat) (fileName : String)
      (st st1 : PanelState),
      server.backupPath ≠ "" →
      RotateBackups server.id server.maxBackups st = .ok st1 →
      executeBackup server true false newId newTime fileName st
        = (⟨st1.db, goJoin server.backupPath fileName :: st1.files⟩, false)) := by
  constructor
  · intro server cOk nid nt fn st h
    unfold httpCreateBackup
    split
    · exact h
    · cases hr : RotateBackups server.id server.maxBackups st with
      | error e =>
        simp only
        exact h
      | ok st1 =>
        simp only
        have h1 : st1.files.contains (goJoin server.backupPath fn) = false := by
          rcases rotate_ok_files _ _ _ _ hr with he | ⟨fp, he⟩
          · rw [he]; exact h
          · rw [he]; exact contains_false_filter _ _ _ h
        split
        · exact contains_filter_ne_self (goJoin server.backupPath fn :: st1.files)
            (goJoin server.backupPath fn)
        · exact h1
  · intro server nid nt fn st st1 hbp hr
    unfold executeBackup
    rw [if_neg hbp, hr]
    rfl

/-- C3 witness: a concrete failed insert in the HTTP path leaves no file;
the scheduled path's orphan behaviour at a concrete rotation result. -/
theorem backup_create_cleanup_witness :
    ((httpCreateBackup ⟨1, "srv", "/data", "/backups", 3, "offline"⟩ true false
        7 10 "b.tar.gz" ⟨[], []⟩).1).files.contains
      (goJoin "/backups" "b.tar.gz") = false
    ∧ executeBackup ⟨2, "srv2", "/data2", "/bk2", 3, "offline"⟩ true false 7 10
        "c.tar.gz" ⟨[], ["/bk2/old"]⟩
      = (⟨[], "/bk2/c.tar.gz" :: ["/bk2/old"]⟩, false) := by
  constructor
  · exact backup_create_cleanup.1 ⟨1, "srv", "/data", "/backups", 3, "offline"⟩
      true 7 10 "b.tar.gz" ⟨[], []⟩ (by decide)
  · exact backup_create_cleanup.2 ⟨2, "srv2", "/data2", "/bk2", 3, "offline"⟩
      7 10 "c.tar.gz" ⟨[], ["/bk2/old"]⟩ ⟨[], ["/bk2/old"]⟩ (by decide) rfl

/- ## C7 -/

/-- C7: rotation deletes nothing when the count is below the maximum; when
the count has reached the maximum (at least 1) an oldest backup exists, and
rotation removes exactly that single backup — a member of the server's
backups with minimal creation timestamp — deleting its file and record and
decreasing the server's count by exactly one, never more, however far the
count exceeds the maximum. The `Nodup` hypothesis is the database
primary-key invariant on backup ids. -/
theorem rotate_evicts_single_oldest :
    ∀ (serverID : Nat) (maxBackups : Int) (st : PanelState),
      (st.db.map BackupRec.id).Nodup →
      (((countBackups serverID st.db : Int) < maxBackups →
          RotateBackups serverID maxBackups st = .ok st) ∧
       (1 ≤ maxBackups → (countBackups serverID st.db : Int) ≥ maxBackups →
          (getOldestBackup serverID st.db).isSome = true) ∧
       (∀ b, getOldestBackup serverID st.db = some b →
          b ∈ st.db ∧ b.serverID = serverID ∧
          (∀ c ∈ st.db, c.serverID = serverID → b.createdAt ≤ c.createdAt) ∧
          ((countBackups serverID st.db : Int) ≥ maxBackups →
            RotateBackups serverID maxBackups st
              = .ok ⟨st.db.filter (fun x => x.id != b.id),
                     st.files.filter (fun p => p != b.filePath)⟩ ∧
            countBackups serverID (st.db.filter (fun x => x.id != b.id)) + 1
              = countBackups serverID st.db))) := by
  intro serverID maxBackups st hnd
  refine ⟨?_, ?_, ?_⟩
  · intro hlt
    unfold RotateBackups
    rw [if_neg (by omega)]
  · intro hmx hge
    exact getOldest_isSome _ _ (by omega)
  · intro b hb
    have hm := getOldest_mem _ _ _ hb
    refine ⟨hm.1, hm.2, getOldest_min _ _ _ hb, ?_⟩
    intro hge
    constructor
    · unfold RotateBackups
      rw [if_pos (by omega), hb]
    · exact count_erase_oldest _ _ _ hnd hm.1 hm.2

/-- C7 witness: concrete rotation at the limit deletes exactly the oldest
of two backups (record and file), and below the limit deletes nothing. -/
theorem rotate_evicts_single_oldest_witness :
    RotateBackups 1 5 ⟨[⟨1, 1, "a", "/bk/a", 4⟩, ⟨2, 1, "b", "/bk/b", 3⟩],
        ["/bk/a", "/bk/b"]⟩
      = .ok ⟨[⟨1, 1, "a", "/bk/a", 4⟩, ⟨2, 1, "b", "/bk/b", 3⟩], ["/bk/a", "/bk/b"]⟩
    ∧ RotateBackups 1 2 ⟨[⟨1, 1, "a", "/bk/a", 4⟩, ⟨2, 1, "b", "/bk/b", 3⟩],
        ["/bk/a", "/bk/b"]⟩
      = .ok ⟨[⟨1, 1, "a", "/bk/a", 4⟩], ["/bk/a"]⟩ := by
  constructor
  · exact (rotate_evicts_single_oldest 1 5
      ⟨[⟨1, 1, "a", "/bk/a", 4⟩, ⟨2, 1, "b", "/bk/b", 3⟩], ["/bk/a", "/bk/b"]⟩
      (by decide)).1 (by decide)
  · exact (((rotate_evicts_single_oldest 1 2
      ⟨[⟨1, 1, "a", "/bk/a", 4⟩, ⟨2, 1, "b", "/bk/b", 3⟩], ["/bk/a", "/bk/b"]⟩
      (by decide)).2.2 ⟨2, 1, "b", "/bk/b", 3⟩ (by decide)).2.2.2 (by decide)).1

theorem validateSingle_bounds (f : String) (lo hi : Int) (v : String) (n : Int)
    (hf : fieldRange f = some (lo, hi)) (ha : goAtoi v = some n)
    (hv : validateSingleCronValue f v = none) : lo ≤ n ∧ n ≤ hi := by
  unfold validateSingleCronValue at hv
  rw [ha] at hv
  simp only at hv
  unfold fieldRange at hf
  split_ifs at hf with h1 h2 h3 h4 h5 <;>
    [subst h1; subst h2; subst h3; subst h4; subst h5] <;>
    injection hf with hp <;> injection hp with hlo hhi <;> subst hlo <;> subst hhi <;>
    simp at hv <;> omega

theorem validateRange_bounds (f : String) (lo hi a b : Int)
    (hf : fieldRange f = some (lo, hi)) (hv : validateCronRange f a b = none) :
    lo ≤ a ∧ b ≤ hi := by
  unfold validateCronRange at hv
  unfold fieldRange at hf
  split_ifs at hf with h1 h2 h3 h4 h5 <;>
    [subst h1; subst h2; subst h3; subst h4; subst h5] <;>
    injection hf with hp <;> injection hp with hlo hhi <;> subst hlo <;> subst hhi <;>
    simp at hv <;> omega

theorem validateListParts_ok (f : String) (ps : List String)
    (h : validateListParts f ps = none) :
    ∀ p ∈ ps, validateSingleCronValue f (trimSpace p) = none := by
  induction ps with
  | nil => intro p hp; exact absurd hp (by simp)
  | cons a t ih =>
    intro p hp
    unfold validateListParts at h
    cases hs : validateSingleCronValue f (trimSpace a) with
    | some e => rw [hs] at h; simp only at h; exact absurd h (by simp)
    | none =>
      rw [hs] at h
      simp only at h
      rcases List.mem_cons.mp hp with rfl | h2
      · exact hs
      · exact ih h p h2

/- ## C5 -/

/-- C5, counterexample: the step form is not bounds-checked — the validator
accepts `*/99` for the minute field although the numeral it contains, 99,
is outside the minute range 0-59. -/
theorem cron_step_unbounded_counterexample :
    ValidateCronField "minute" "*/99" = none
    ∧ goAtoi ⟨"*/99".data.drop 2⟩ = some 99
    ∧ ¬((0 : Int) ≤ 99 ∧ (99 : Int) ≤ 59) := by
  decide

/-- C5, amended: for every cron field and every accepted value of the list,
range, or single-value forms, all numbers the value contains are within the
field's range (minute 0-59, hour 0-23, day-of-month 1-31, month 1-12,
day-of-week 0-6); step values `*/n` are excluded — they are checked only for
`n ≥ 1`, never against the field's range, as the counterexample shows. -/
theorem cron_numeric_bounds :
    ∀ (f : String) (lo hi : Int) (v : String),
      fieldRange f = some (lo, hi) →
      hasStarSlash v = false →
      ValidateCronField f v = none →
      ∀ n ∈ cronNumbers v, lo ≤ n ∧ n ≤ hi := by
  intro f lo hi v hf hstar hval n hn
  unfold ValidateCronField at hval
  unfold cronNumbers at hn
  by_cases h0 : v = ""
  · rw [if_pos h0] at hval; exact absurd hval (by simp)
  rw [if_neg h0] at hval
  by_cases h1 : v = "*"
  · rw [if_pos h1] at hn; exact absurd hn (by simp)
  rw [if_neg h1] at hval
  rw [if_neg h1] at hn
  rw [hstar] at hval hn
  simp only [Bool.false_eq_true, if_false] at hval hn
  by_cases hc : containsChar v ',' = true
  · rw [if_pos hc] at hval hn
    obtain ⟨p, hp, hpa⟩ := List.mem_filterMap.mp hn
    exact validateSingle_bounds f lo hi (trimSpace p) n hf hpa
      (validateListParts_ok f _ hval p hp)
  · rw [if_neg hc] at hval hn
    by_cases hd : containsChar v '-' = true
    · rw [if_pos hd] at hval hn
      cases hsp : splitChar '-' v.data with
      | nil => rw [hsp] at hval; simp only at hval; exact absurd hval (by simp)
      | cons a t =>
        cases t with
        | nil => rw [hsp] at hval; simp only at hval; exact absurd hval (by simp)
        | cons b t2 =>
          cases t2 with
          | cons c t3 => rw [hsp] at hval; simp only at hval; exact absurd hval (by simp)
          | nil =>
            rw [hsp] at hval hn
            simp only at hval hn
            cases hga : goAtoi (trimSpace ⟨a⟩) with
            | none => rw [hga] at hval; simp only at hval; exact absurd hval (by simp)
            | some s =>
              cases hgb : goAtoi (trimSpace ⟨b⟩) with
              | none =>
                rw [hga, hgb] at hval; simp only at hval; exact absurd hval (by simp)
              | some e =>
                rw [hga, hgb] at hval
                simp only at hval
                split at hval
                · exact absurd hval (by simp)
                · rename_i hse
                  have hbd := validateRange_bounds f lo hi s e hf hval
                  simp [hga, hgb] at hn
                  rcases hn with rfl | rfl <;> omega
    · rw [if_neg hd] at hval hn
      cases hv2 : goAtoi v with
      | none => rw [hv2] at hn; exact absurd hn (by simp)
      | some m =>
        rw [hv2] at hn
        simp only [Option.toList_some, List.mem_singleton] at hn
        subst hn
        exact validateSingle_bounds f lo hi v n hf hv2 hval

/-- C5 witness: the accepted minute value `7, 59` has all its numbers in
the minute range. -/
theorem cron_numeric_bounds_witness :
    ValidateCronField "minute" "7, 59" = none
    ∧ ((0 : Int) ≤ 7 ∧ (7 : Int) ≤ 59) :=
  ⟨by decide,
   cron_numeric_bounds "minute" 0 59 "7, 59" (by decide) (by decide) (by decide)
     7 (by decide)⟩
